import Mathlib

/-!
# Verification of the `MemStorage` in-memory file store (`server/storage.ts`)

Shallow embedding of the `MemStorage` class of FileSharePro's `server/storage.ts`.

* A JS `Map<number, File>` is modelled as an insertion-ordered association
  list `List (Nat × File)` with the `Map` operations `get`, `set`, `delete`
  and `values` (`set` replaces in place when the key is present, otherwise
  appends; `values` iterates in insertion order).
* `new Date()` timestamps are modelled by an explicit `now : Nat` argument.
* `Array.prototype.sort`, stable by the ECMAScript specification, is modelled
  by `List.insertionSort` (a stable sort) with the comparator
  `(a, b) => b.uploadedAt.getTime() - a.uploadedAt.getTime()`, i.e. the
  relation `timeGE a b ↔ b.uploadedAt ≤ a.uploadedAt`.
* The methods are pure state transformers; read-only methods return a pair
  of the result and the (unchanged) state.
-/

namespace FileSharePro

/-- The caller-supplied draft (`InsertFile` of `@shared/schema`): the fields of
`fileData` built in the upload route. -/
structure InsertFile where
  filename : String
  originalName : String
  mimeType : String
  size : Nat
  shareId : String
deriving DecidableEq

/-- A stored file record (`File` of `@shared/schema`): the draft fields plus
the store-assigned `id`, `uploadedAt`, `views`, `downloads`. -/
structure File where
  id : Nat
  filename : String
  originalName : String
  mimeType : String
  size : Nat
  shareId : String
  uploadedAt : Nat
  views : Nat
  downloads : Nat
deriving DecidableEq

/-- `Map.get`: the value stored at key `k`, if any. -/
def mapGet (k : Nat) : List (Nat × File) → Option File
  | [] => none
  | (k', v') :: rest => if k' = k then some v' else mapGet k rest

/-- `Map.set`: replace the entry at key `k` in place when present, else append. -/
def mapSet (k : Nat) (v : File) : List (Nat × File) → List (Nat × File)
  | [] => [(k, v)]
  | (k', v') :: rest => if k' = k then (k, v) :: rest else (k', v') :: mapSet k v rest

/-- `Map.delete`: remove the entry at key `k` (a JS `Map` holds at most one). -/
def mapDelete (k : Nat) : List (Nat × File) → List (Nat × File)
  | [] => []
  | (k', v') :: rest => if k' = k then rest else (k', v') :: mapDelete k rest

/-- `Array.from(map.values())`: the stored values in insertion order. -/
def mapValues (l : List (Nat × File)) : List File := l.map Prod.snd

/-- The state of a `MemStorage` instance: the private `files` map and the
private `currentId` counter. -/
structure MemStorage where
  files : List (Nat × File)
  currentId : Nat
deriving DecidableEq

/-- The constructor: empty map, counter starts at 1. -/
def MemStorage.empty : MemStorage := { files := [], currentId := 1 }

/-- `createFile`: take `id = this.currentId++`, build the record from the draft
with `uploadedAt = new Date()` (the `now` argument), counters 0, store it and
return it. -/
def createFile (s : MemStorage) (insertFile : InsertFile) (now : Nat) :
    File × MemStorage :=
  let id := s.currentId
  let file : File :=
    { id := id
      filename := insertFile.filename
      originalName := insertFile.originalName
      mimeType := insertFile.mimeType
      size := insertFile.size
      shareId := insertFile.shareId
      uploadedAt := now
      views := 0
      downloads := 0 }
  (file, { files := mapSet id file s.files, currentId := s.currentId + 1 })

/-- `getFileByShareId`: `Array.from(this.files.values()).find(file => file.shareId === shareId)`. -/
def getFileByShareId (s : MemStorage) (shareId : String) : Option File × MemStorage :=
  ((mapValues s.files).find? (fun file => file.shareId == shareId), s)

/-- The comparator of `getAllFiles`, `(a, b) => b.uploadedAt.getTime() - a.uploadedAt.getTime()`:
`a` sorts no later than `b` iff the comparator is `≤ 0`, i.e. `b.uploadedAt ≤ a.uploadedAt`. -/
def timeGE (a b : File) : Prop := b.uploadedAt ≤ a.uploadedAt

instance : DecidableRel timeGE := fun a b => Nat.decLe b.uploadedAt a.uploadedAt

instance : IsTotal File timeGE := ⟨fun a b => Nat.le_total b.uploadedAt a.uploadedAt⟩

instance : IsTrans File timeGE := ⟨fun _ _ _ hab hbc => Nat.le_trans hbc hab⟩

/-- `getAllFiles`: copy the values and sort them (stably) by `uploadedAt`
descending; the map itself is untouched. -/
def getAllFiles (s : MemStorage) : List File × MemStorage :=
  ((mapValues s.files).insertionSort timeGE, s)

/-- `incrementViews`: if a record with this `id` exists, bump `views` by one
and store it back; otherwise do nothing. -/
def incrementViews (s : MemStorage) (id : Nat) : MemStorage :=
  match mapGet id s.files with
  | some file => { s with files := mapSet id { file with views := file.views + 1 } s.files }
  | none => s

/-- `incrementDownloads`: if a record with this `id` exists, bump `downloads`
by one and store it back; otherwise do nothing. -/
def incrementDownloads (s : MemStorage) (id : Nat) : MemStorage :=
  match mapGet id s.files with
  | some file => { s with files := mapSet id { file with downloads := file.downloads + 1 } s.files }
  | none => s

/-- `deleteFile`: `this.files.delete(id)`. -/
def deleteFile (s : MemStorage) (id : Nat) : MemStorage :=
  { s with files := mapDelete id s.files }

/-- The aggregate record returned by `getStats`. -/
structure Stats where
  totalFiles : Nat
  totalViews : Nat
  totalDownloads : Nat
  totalSize : Nat
deriving DecidableEq

/-- `getStats`: recompute the four aggregates from `Array.from(this.files.values())`
on every call (`reduce` with initial accumulator 0 is a left fold). -/
def getStats (s : MemStorage) : Stats × MemStorage :=
  let allFiles := mapValues s.files
  ({ totalFiles := allFiles.length
     totalViews := allFiles.foldl (fun sum file => sum + file.views) 0
     totalDownloads := allFiles.foldl (fun sum file => sum + file.downloads) 0
     totalSize := allFiles.foldl (fun sum file => sum + file.size) 0 }, s)

/-- The store's operations, for reasoning about arbitrary call sequences.
`create` carries the draft and the clock value observed by `new Date()`. -/
inductive Op where
  | create (d : InsertFile) (now : Nat)
  | lookupShare (shareId : String)
  | listAll
  | incViews (id : Nat)
  | incDownloads (id : Nat)
  | delete (id : Nat)
  | stats
deriving DecidableEq

/-- The state after one operation. -/
def applyOp (s : MemStorage) : Op → MemStorage
  | .create d now => (createFile s d now).2
  | .lookupShare sid => (getFileByShareId s sid).2
  | .listAll => (getAllFiles s).2
  | .incViews id => incrementViews s id
  | .incDownloads id => incrementDownloads s id
  | .delete id => deleteFile s id
  | .stats => (getStats s).2

/-- The state after a sequence of operations. -/
def runOps (s : MemStorage) : List Op → MemStorage
  | [] => s
  | op :: rest => runOps (applyOp s op) rest

/-- The `id`s returned by the `createFile` calls of a sequence, in call order. -/
def createdIds (s : MemStorage) : List Op → List Nat
  | [] => []
  | op :: rest =>
    match op with
    | .create d now => (createFile s d now).1.id :: createdIds (applyOp s op) rest
    | _ => createdIds (applyOp s op) rest

/-- A state is reachable when some operation sequence produces it from a
freshly constructed store. -/
def Reachable (s : MemStorage) : Prop :=
  ∃ ops : List Op, runOps MemStorage.empty ops = s

/-- The internal invariant of `MemStorage`: every key is below the counter,
keys are distinct, and each record's `id` field equals its key. -/
def Inv (s : MemStorage) : Prop :=
  (∀ kv ∈ s.files, kv.1 < s.currentId) ∧
  (s.files.map Prod.fst).Nodup ∧
  (∀ kv ∈ s.files, kv.2.id = kv.1)

/-! ## Lemmas about the `Map` model -/

theorem mapGet_mapSet_self (k : Nat) (v : File) :
    ∀ l, mapGet k (mapSet k v l) = some v
  | [] => by simp [mapGet, mapSet]
  | (k', v') :: rest => by
    by_cases h : k' = k
    · simp [mapGet, mapSet, h]
    · simp [mapGet, mapSet, h, mapGet_mapSet_self k v rest]

theorem mapGet_mapSet_ne {j k : Nat} (h : j ≠ k) (v : File) :
    ∀ l, mapGet j (mapSet k v l) = mapGet j l
  | [] => by simp [mapGet, mapSet, Ne.symm h]
  | (k', v') :: rest => by
    by_cases hk : k' = k
    · subst hk
      simp [mapGet, mapSet, Ne.symm h]
    · simp only [mapSet, if_neg hk, mapGet]
      by_cases hj : k' = j
      · simp [hj]
      · simp [hj, mapGet_mapSet_ne h v rest]

theorem mapGet_mapDelete_ne {j k : Nat} (h : j ≠ k) :
    ∀ l, mapGet j (mapDelete k l) = mapGet j l
  | [] => by simp [mapGet, mapDelete]
  | (k', v') :: rest => by
    by_cases hk : k' = k
    · subst hk
      simp [mapDelete, mapGet, Ne.symm h]
    · simp only [mapDelete, if_neg hk, mapGet]
      by_cases hj : k' = j
      · simp [hj]
      · simp [hj, mapGet_mapDelete_ne h rest]

theorem mapDelete_sublist (k : Nat) : ∀ l, List.Sublist (mapDelete k l) l
  | [] => List.Sublist.refl _
  | (k', v') :: rest => by
    by_cases hk : k' = k
    · simp only [mapDelete, if_pos hk]
      exact List.sublist_cons_self (k', v') rest
    · simpa [mapDelete, hk] using List.Sublist.cons₂ (k', v') (mapDelete_sublist k rest)

theorem mapGet_eq_none_iff (k : Nat) :
    ∀ l, mapGet k l = none ↔ ∀ kv ∈ l, kv.1 ≠ k
  | [] => by simp [mapGet]
  | (k', v') :: rest => by
    by_cases hk : k' = k
    · simp [mapGet, hk]
    · simp [mapGet, hk, mapGet_eq_none_iff k rest]

theorem mapGet_mem {k : Nat} {v : File} :
    ∀ {l}, mapGet k l = some v → (k, v) ∈ l
  | (k', v') :: rest, h => by
    by_cases hk : k' = k
    · subst hk
      simp only [mapGet, if_true, eq_self_iff_true, Option.some.injEq] at h
      cases h
      exact List.mem_cons_self _ _
    · simp only [mapGet, if_neg hk] at h
      exact List.mem_cons_of_mem _ (mapGet_mem h)

theorem mapDelete_of_none {k : Nat} :
    ∀ {l}, mapGet k l = none → mapDelete k l = l
  | [], _ => rfl
  | (k', v') :: rest, h => by
    by_cases hk : k' = k
    · simp [mapGet, hk] at h
    · simp only [mapGet, if_neg hk] at h
      simp [mapDelete, hk, mapDelete_of_none h]

theorem mem_mapDelete_of_nodup {k : Nat} {kv : Nat × File} :
    ∀ {l}, (l.map Prod.fst).Nodup → kv ∈ mapDelete k l → kv ∈ l ∧ kv.1 ≠ k
  | (k', v') :: rest, hnd, hm => by
    simp only [List.map_cons, List.nodup_cons] at hnd
    by_cases hk : k' = k
    · subst hk
      simp only [mapDelete, if_pos rfl] at hm
      refine ⟨List.mem_cons_of_mem _ hm, ?_⟩
      intro hkv
      exact hnd.1 (hkv ▸ List.mem_map_of_mem Prod.fst hm)
    · simp only [mapDelete, if_neg hk] at hm
      rcases List.mem_cons.mp hm with h | h
      · exact ⟨List.mem_cons.mpr (Or.inl h), by simp [h, hk]⟩
      · obtain ⟨h1, h2⟩ := mem_mapDelete_of_nodup hnd.2 h
        exact ⟨List.mem_cons_of_mem _ h1, h2⟩

theorem mapGet_mapDelete_self {k : Nat} {l : List (Nat × File)}
    (hnd : (l.map Prod.fst).Nodup) : mapGet k (mapDelete k l) = none := by
  rw [mapGet_eq_none_iff]
  intro kv hkv
  exact (mem_mapDelete_of_nodup hnd hkv).2

theorem mapSet_keys_of_get_some {k : Nat} {v w : File} :
    ∀ {l}, mapGet k l = some w → (mapSet k v l).map Prod.fst = l.map Prod.fst
  | (k', v') :: rest, h => by
    by_cases hk : k' = k
    · simp [mapSet, hk]
    · simp only [mapGet, if_neg hk] at h
      simp [mapSet, hk, mapSet_keys_of_get_some h]

theorem mapSet_of_fresh {k : Nat} (v : File) :
    ∀ {l}, mapGet k l = none → mapSet k v l = l ++ [(k, v)]
  | [], _ => rfl
  | (k', v') :: rest, h => by
    by_cases hk : k' = k
    · simp [mapGet, hk] at h
    · simp only [mapGet, if_neg hk] at h
      simp [mapSet, hk, mapSet_of_fresh v h]

theorem mem_mapSet {k : Nat} {v : File} {kv : Nat × File} :
    ∀ {l}, kv ∈ mapSet k v l → kv = (k, v) ∨ kv ∈ l
  | [], h => by simpa [mapSet] using h
  | (k', v') :: rest, h => by
    by_cases hk : k' = k
    · simp only [mapSet, if_pos hk] at h
      rcases List.mem_cons.mp h with h | h
      · exact Or.inl h
      · exact Or.inr (List.mem_cons_of_mem _ h)
    · simp only [mapSet, if_neg hk] at h
      rcases List.mem_cons.mp h with h | h
      · exact Or.inr (List.mem_cons.mpr (Or.inl h))
      · rcases mem_mapSet h with h | h
        · exact Or.inl h
        · exact Or.inr (List.mem_cons_of_mem _ h)

/-! ## The invariant holds in every reachable state -/

theorem inv_empty : Inv MemStorage.empty := by
  refine ⟨?_, ?_, ?_⟩ <;> simp [Inv, MemStorage.empty]

theorem mapGet_currentId_none (s : MemStorage)
    (hb : ∀ kv ∈ s.files, kv.1 < s.currentId) :
    mapGet s.currentId s.files = none := by
  rw [mapGet_eq_none_iff]
  intro kv hkv
  exact Nat.ne_of_lt (hb kv hkv)

theorem createFile_files_eq (s : MemStorage) (d : InsertFile) (now : Nat)
    (hb : ∀ kv ∈ s.files, kv.1 < s.currentId) :
    (createFile s d now).2.files
      = s.files ++ [(s.currentId, (createFile s d now).1)] :=
  mapSet_of_fresh _ (mapGet_currentId_none s hb)

theorem inv_createFile {s : MemStorage} (h : Inv s) (d : InsertFile) (now : Nat) :
    Inv (createFile s d now).2 := by
  obtain ⟨hb, hnd, hid⟩ := h
  have hfiles := createFile_files_eq s d now hb
  have hcur : (createFile s d now).2.currentId = s.currentId + 1 := rfl
  refine ⟨?_, ?_, ?_⟩
  · intro kv hkv
    rw [hfiles] at hkv
    rw [hcur]
    rcases List.mem_append.mp hkv with h1 | h1
    · exact Nat.lt_succ_of_lt (hb kv h1)
    · simp only [List.mem_singleton] at h1
      subst h1
      exact Nat.lt_succ_self _
  · rw [hfiles, List.map_append, List.nodup_append]
    refine ⟨hnd, List.nodup_singleton _, ?_⟩
    intro a ha hmem
    simp only [List.map_cons, List.map_nil, List.mem_singleton] at hmem
    subst hmem
    rcases List.mem_map.mp ha with ⟨kv, hkv, hfst⟩
    exact absurd (hfst ▸ hb kv hkv) (lt_irrefl _)
  · intro kv hkv
    rw [hfiles] at hkv
    rcases List.mem_append.mp hkv with h1 | h1
    · exact hid kv h1
    · simp only [List.mem_singleton] at h1
      subst h1
      rfl

theorem inv_incrementViews {s : MemStorage} (h : Inv s) (id : Nat) :
    Inv (incrementViews s id) := by
  obtain ⟨hb, hnd, hid⟩ := h
  unfold incrementViews
  cases hget : mapGet id s.files with
  | none => exact ⟨hb, hnd, hid⟩
  | some f =>
    have hkmem := mapGet_mem hget
    refine ⟨?_, ?_, ?_⟩
    · intro kv hkv
      rcases mem_mapSet hkv with h1 | h1
      · subst h1
        exact hb (id, f) hkmem
      · exact hb kv h1
    · show ((mapSet id { f with views := f.views + 1 } s.files).map Prod.fst).Nodup
      rw [mapSet_keys_of_get_some hget]
      exact hnd
    · intro kv hkv
      rcases mem_mapSet hkv with h1 | h1
      · subst h1
        exact hid (id, f) hkmem
      · exact hid kv h1

theorem inv_incrementDownloads {s : MemStorage} (h : Inv s) (id : Nat) :
    Inv (incrementDownloads s id) := by
  obtain ⟨hb, hnd, hid⟩ := h
  unfold incrementDownloads
  cases hget : mapGet id s.files with
  | none => exact ⟨hb, hnd, hid⟩
  | some f =>
    have hkmem := mapGet_mem hget
    refine ⟨?_, ?_, ?_⟩
    · intro kv hkv
      rcases mem_mapSet hkv with h1 | h1
      · subst h1
        exact hb (id, f) hkmem
      · exact hb kv h1
    · show ((mapSet id { f with downloads := f.downloads + 1 } s.files).map Prod.fst).Nodup
      rw [mapSet_keys_of_get_some hget]
      exact hnd
    · intro kv hkv
      rcases mem_mapSet hkv with h1 | h1
      · subst h1
        exact hid (id, f) hkmem
      · exact hid kv h1

theorem inv_deleteFile {s : MemStorage} (h : Inv s) (id : Nat) :
    Inv (deleteFile s id) := by
  obtain ⟨hb, hnd, hid⟩ := h
  have hsub := mapDelete_sublist id s.files
  refine ⟨?_, ?_, ?_⟩
  · intro kv hkv
    exact hb kv (hsub.subset hkv)
  · exact List.Pairwise.sublist (hsub.map Prod.fst) hnd
  · intro kv hkv
    exact hid kv (hsub.subset hkv)

theorem inv_applyOp {s : MemStorage} (h : Inv s) (op : Op) : Inv (applyOp s op) := by
  cases op with
  | create d now => exact inv_createFile h d now
  | lookupShare sid => exact h
  | listAll => exact h
  | incViews id => exact inv_incrementViews h id
  | incDownloads id => exact inv_incrementDownloads h id
  | delete id => exact inv_deleteFile h id
  | stats => exact h

theorem inv_runOps : ∀ (ops : List Op) (s : MemStorage), Inv s → Inv (runOps s ops)
  | [], _, h => h
  | op :: rest, s, h => inv_runOps rest (applyOp s op) (inv_applyOp h op)

theorem reachable_inv {s : MemStorage} (h : Reachable s) : Inv s := by
  obtain ⟨ops, hops⟩ := h
  exact hops ▸ inv_runOps ops MemStorage.empty inv_empty

theorem currentId_le_applyOp (s : MemStorage) (op : Op) :
    s.currentId ≤ (applyOp s op).currentId := by
  cases op with
  | create d now => exact Nat.le_succ _
  | lookupShare sid => exact Nat.le_refl _
  | listAll => exact Nat.le_refl _
  | incViews id =>
    show s.currentId ≤ (incrementViews s id).currentId
    unfold incrementViews
    cases mapGet id s.files <;> exact Nat.le_refl _
  | incDownloads id =>
    show s.currentId ≤ (incrementDownloads s id).currentId
    unfold incrementDownloads
    cases mapGet id s.files <;> exact Nat.le_refl _
  | delete id => exact Nat.le_refl _
  | stats => exact Nat.le_refl _

instance (s : MemStorage) : Decidable (Inv s) := by
  unfold Inv
  infer_instance

/-! ## Concrete fixtures -/

def draftA : InsertFile :=
  { filename := "a.txt", originalName := "A.txt", mimeType := "text/plain",
    size := 10, shareId := "sA" }

def draftB : InsertFile :=
  { filename := "b.txt", originalName := "B.txt", mimeType := "text/plain",
    size := 20, shareId := "sB" }

def draftX1 : InsertFile :=
  { filename := "x1.txt", originalName := "X1.txt", mimeType := "text/plain",
    size := 1, shareId := "x" }

def draftX2 : InsertFile :=
  { filename := "x2.txt", originalName := "X2.txt", mimeType := "text/plain",
    size := 2, shareId := "x" }

/-- The record created first in `tieState` (timestamp 5). -/
def fileA5 : File := (createFile MemStorage.empty draftA 5).1

/-- The record created second in `tieState` (same timestamp 5). -/
def fileB5 : File := (createFile (createFile MemStorage.empty draftA 5).2 draftB 5).1

/-- Two records created at the same timestamp. -/
def tieState : MemStorage := (createFile (createFile MemStorage.empty draftA 5).2 draftB 5).2

/-- The first record of `dupState` (shareId "x"). -/
def fileX1 : File := (createFile MemStorage.empty draftX1 1).1

/-- Two records sharing the shareId "x". -/
def dupState : MemStorage := (createFile (createFile MemStorage.empty draftX1 1).2 draftX2 2).2

/-! ## Supporting lemmas for the aggregate sums -/

theorem foldl_add_eq (f : File → Nat) :
    ∀ (l : List File) (a : Nat), l.foldl (fun sum x => sum + f x) a = a + (l.map f).sum
  | [], a => by simp
  | x :: rest, a => by
    rw [List.foldl_cons, foldl_add_eq f rest, List.map_cons, List.sum_cons, Nat.add_assoc]

/-! ## The claims -/

/-- C10: the read operations `getAllFiles` and `getStats` leave the store
entirely unchanged: the state they return has the same record list (hence the
same live records with all their fields) and the same internal id counter as
the input state. (`getAllFiles` sorts a copy, `Array.from(this.files.values())`,
never the map itself.) -/
theorem read_ops_leave_store_unchanged (s : MemStorage) :
    (getAllFiles s).2 = s ∧ (getStats s).2 = s ∧
    (getAllFiles s).2.files = s.files ∧ (getAllFiles s).2.currentId = s.currentId ∧
    (getStats s).2.files = s.files ∧ (getStats s).2.currentId = s.currentId :=
  ⟨rfl, rfl, rfl, rfl, rfl, rfl⟩

/-- C5: for every draft, `createFile` assigns the next id (the current counter
value), stamps the creation timestamp to the current time, initializes both
counters to 0, copies the five draft fields, stores the record under its id,
returns the full record, and advances the internal id counter by exactly 1.
It is a total function: there is no error path. -/
theorem createFile_spec (s : MemStorage) (d : InsertFile) (now : Nat) :
    (createFile s d now).1.id = s.currentId ∧
    (createFile s d now).1.uploadedAt = now ∧
    (createFile s d now).1.views = 0 ∧
    (createFile s d now).1.downloads = 0 ∧
    (createFile s d now).1.filename = d.filename ∧
    (createFile s d now).1.originalName = d.originalName ∧
    (createFile s d now).1.mimeType = d.mimeType ∧
    (createFile s d now).1.size = d.size ∧
    (createFile s d now).1.shareId = d.shareId ∧
    mapGet (createFile s d now).1.id (createFile s d now).2.files
      = some (createFile s d now).1 ∧
    (createFile s d now).2.currentId = s.currentId + 1 := by
  refine ⟨rfl, rfl, rfl, rfl, rfl, rfl, rfl, rfl, rfl, ?_, rfl⟩
  exact mapGet_mapSet_self _ _ _

/-- C1: `getStats` returns exactly the four aggregates computed over the
records returned by `getAllFiles`: `totalFiles` is their count and
`totalViews`/`totalDownloads`/`totalSize` are the exact sums of the `views`,
`downloads` and `size` fields over that same set. Being a pure function of the
current state, the result is recomputed from the live set on every call, so it
reflects every preceding `createFile` and `deleteFile`. -/
theorem getStats_spec (s : MemStorage) :
    (getStats s).1.totalFiles = (getAllFiles s).1.length ∧
    (getStats s).1.totalViews = ((getAllFiles s).1.map File.views).sum ∧
    (getStats s).1.totalDownloads = ((getAllFiles s).1.map File.downloads).sum ∧
    (getStats s).1.totalSize = ((getAllFiles s).1.map File.size).sum := by
  have hperm : List.Perm ((mapValues s.files).insertionSort timeGE) (mapValues s.files) :=
    List.perm_insertionSort timeGE _
  simp only [getStats, getAllFiles]
  refine ⟨hperm.length_eq.symm, ?_, ?_, ?_⟩
  · rw [foldl_add_eq, Nat.zero_add, List.Perm.sum_eq (hperm.map File.views)]
  · rw [foldl_add_eq, Nat.zero_add, List.Perm.sum_eq (hperm.map File.downloads)]
  · rw [foldl_add_eq, Nat.zero_add, List.Perm.sum_eq (hperm.map File.size)]

/-! ## C2: created ids increase strictly and never repeat -/

theorem createdIds_spec (ops : List Op) :
    ∀ s : MemStorage,
      (∀ x ∈ createdIds s ops, s.currentId ≤ x) ∧
      (createdIds s ops).Pairwise (· < ·) := by
  induction ops with
  | nil => intro s; simp [createdIds]
  | cons op rest ih =>
    intro s
    cases op with
    | create d now =>
      have h1 := ih (applyOp s (Op.create d now))
      have hcur : (applyOp s (Op.create d now)).currentId = s.currentId + 1 := rfl
      constructor
      · intro x hx
        rcases List.mem_cons.mp hx with h | h
        · subst h
          exact Nat.le_refl _
        · have hle := h1.1 x h
          rw [hcur] at hle
          exact Nat.le_of_succ_le hle
      · refine List.Pairwise.cons ?_ h1.2
        intro y hy
        have hle := h1.1 y hy
        rw [hcur] at hle
        exact Nat.lt_of_succ_le hle
    | lookupShare sid =>
      have h1 := ih (applyOp s (Op.lookupShare sid))
      exact ⟨fun x hx =>
        Nat.le_trans (currentId_le_applyOp s (Op.lookupShare sid)) (h1.1 x hx), h1.2⟩
    | listAll =>
      have h1 := ih (applyOp s Op.listAll)
      exact ⟨fun x hx =>
        Nat.le_trans (currentId_le_applyOp s Op.listAll) (h1.1 x hx), h1.2⟩
    | incViews id =>
      have h1 := ih (applyOp s (Op.incViews id))
      exact ⟨fun x hx =>
        Nat.le_trans (currentId_le_applyOp s (Op.incViews id)) (h1.1 x hx), h1.2⟩
    | incDownloads id =>
      have h1 := ih (applyOp s (Op.incDownloads id))
      exact ⟨fun x hx =>
        Nat.le_trans (currentId_le_applyOp s (Op.incDownloads id)) (h1.1 x hx), h1.2⟩
    | delete id =>
      have h1 := ih (applyOp s (Op.delete id))
      exact ⟨fun x hx =>
        Nat.le_trans (currentId_le_applyOp s (Op.delete id)) (h1.1 x hx), h1.2⟩
    | stats =>
      have h1 := ih (applyOp s Op.stats)
      exact ⟨fun x hx =>
        Nat.le_trans (currentId_le_applyOp s Op.stats) (h1.1 x hx), h1.2⟩

/-- C2: over every operation sequence on a fresh `MemStorage`, the ids returned
by successive `createFile` calls are pairwise strictly increasing (in call
order) and never repeat, deletions in between notwithstanding: `deleteFile`
does not touch `currentId`, so ids are never recycled. -/
theorem createFile_ids_strictly_increasing (ops : List Op) :
    ((createdIds MemStorage.empty ops).Pairwise (· < ·)) ∧
    (createdIds MemStorage.empty ops).Nodup :=
  ⟨(createdIds_spec ops MemStorage.empty).2,
   List.Pairwise.imp (fun h => Nat.ne_of_lt h) (createdIds_spec ops MemStorage.empty).2⟩

/-! ## C3: ordering of `getAllFiles` -/

/-- C3 counterexample: create two records at the same timestamp (first `fileA5`
with id 1, then `fileB5` with id 2, both at time 5). `Array.prototype.sort` is
stable, so `getAllFiles` returns them in insertion order `[1, 2]` — the
earlier-created record first — and not in the claimed reverse insertion order
`[2, 1]`. -/
theorem getAllFiles_tie_break_counterexample :
    fileA5.uploadedAt = fileB5.uploadedAt ∧
    fileA5.id = 1 ∧ fileB5.id = 2 ∧
    (getAllFiles tieState).1.map File.id = [1, 2] ∧
    (getAllFiles tieState).1.map File.id ≠ [2, 1] := by decide

/-- C3 amended: `getAllFiles` returns exactly the live records (a permutation
of the stored values), ordered by `uploadedAt` descending; when two records
have equal `uploadedAt` the tie is broken by insertion order — the
earlier-created record comes first (sort stability) — and creating records
A, B, C in that order with strictly increasing distinct timestamps yields
`[C, B, A]`. -/
theorem getAllFiles_spec (s : MemStorage) :
    List.Perm (getAllFiles s).1 (mapValues s.files) ∧
    (getAllFiles s).1.Pairwise timeGE ∧
    (∀ a b : File, a.uploadedAt = b.uploadedAt →
      List.Sublist [a, b] (mapValues s.files) →
      List.Sublist [a, b] (getAllFiles s).1) ∧
    (∀ (d1 d2 d3 : InsertFile) (t1 t2 t3 : Nat), t1 < t2 → t2 < t3 →
      (getAllFiles (createFile (createFile (createFile MemStorage.empty d1 t1).2 d2 t2).2 d3 t3).2).1
        = [(createFile (createFile (createFile MemStorage.empty d1 t1).2 d2 t2).2 d3 t3).1,
           (createFile (createFile MemStorage.empty d1 t1).2 d2 t2).1,
           (createFile MemStorage.empty d1 t1).1]) := by
  refine ⟨List.perm_insertionSort timeGE _, List.sorted_insertionSort timeGE _, ?_, ?_⟩
  · intro a b hab hsub
    exact List.pair_sublist_insertionSort (le_of_eq hab.symm) hsub
  · intro d1 d2 d3 t1 t2 t3 h12 h23
    have h13 : ¬ t3 ≤ t1 := Nat.not_le.mpr (Nat.lt_trans h12 h23)
    have h23' : ¬ t3 ≤ t2 := Nat.not_le.mpr h23
    have h12' : ¬ t2 ≤ t1 := Nat.not_le.mpr h12
    simp [getAllFiles, createFile, MemStorage.empty, mapSet, mapValues,
      List.insertionSort, List.orderedInsert, timeGE, h13, h23', h12']

/-- C3 amended, witness: in `tieState` the two equal-timestamp records come out
in insertion order, and three records created at times 1 < 2 < 3 come out in
reverse creation order. -/
theorem getAllFiles_spec_witness :
    List.Sublist [fileA5, fileB5] (getAllFiles tieState).1 ∧
    (getAllFiles (createFile (createFile (createFile MemStorage.empty draftA 1).2 draftB 2).2 draftX1 3).2).1
      = [(createFile (createFile (createFile MemStorage.empty draftA 1).2 draftB 2).2 draftX1 3).1,
         (createFile (createFile MemStorage.empty draftA 1).2 draftB 2).1,
         (createFile MemStorage.empty draftA 1).1] :=
  ⟨(getAllFiles_spec tieState).2.2.1 fileA5 fileB5 rfl (by decide),
   (getAllFiles_spec (createFile (createFile (createFile MemStorage.empty draftA 1).2 draftB 2).2 draftX1 3).2).2.2.2
     draftA draftB draftX1 1 2 3 (by decide) (by decide)⟩

/-! ## C4: lookup by share id -/

theorem find?_eq_some_first {p : File → Bool} :
    ∀ {l : List File} {f : File}, l.find? p = some f →
      p f = true ∧ ∃ l₁ l₂, l = l₁ ++ f :: l₂ ∧ ∀ g ∈ l₁, p g = false
  | [], f, h => by simp [List.find?] at h
  | x :: rest, f, h => by
    by_cases hx : p x
    · rw [List.find?_cons_of_pos _ hx] at h
      cases h
      exact ⟨hx, [], rest, rfl, by simp⟩
    · rw [List.find?_cons_of_neg _ hx] at h
      obtain ⟨hpf, l₁, l₂, heq, hall⟩ := find?_eq_some_first h
      refine ⟨hpf, x :: l₁, l₂, by rw [List.cons_append, heq], ?_⟩
      intro g hg
      rcases List.mem_cons.mp hg with h1 | h1
      · subst h1
        exact Bool.eq_false_iff.mpr hx
      · exact hall g h1

/-- C4: `getFileByShareId s sid` returns a record whose `shareId` is `sid`
when one exists (and a live one: the result splits the value list at the
returned record) and `none` exactly when no live record has that `shareId`;
when several live records share the `shareId` it returns the first match in
insertion order (every record before it in the value list has a different
`shareId`); and the call never modifies the store. -/
theorem getFileByShareId_spec (s : MemStorage) (sid : String) :
    (∀ f, (getFileByShareId s sid).1 = some f →
      f.shareId = sid ∧
      ∃ l₁ l₂, mapValues s.files = l₁ ++ f :: l₂ ∧ ∀ g ∈ l₁, g.shareId ≠ sid) ∧
    ((getFileByShareId s sid).1 = none ↔ ∀ f ∈ mapValues s.files, f.shareId ≠ sid) ∧
    (getFileByShareId s sid).2 = s := by
  refine ⟨?_, ?_, rfl⟩
  · intro f h
    obtain ⟨hpf, l₁, l₂, heq, hall⟩ := find?_eq_some_first h
    refine ⟨by simpa using hpf, l₁, l₂, heq, ?_⟩
    intro g hg
    simpa using hall g hg
  · show (mapValues s.files).find? (fun file => file.shareId == sid) = none ↔ _
    rw [List.find?_eq_none]
    constructor
    · intro h f hf
      simpa using h f hf
    · intro h f hf
      simpa using h f hf

/-- C4 witness: in `dupState` two records share the shareId "x"; the lookup
returns the first-inserted one, `fileX1`, with its split of the value list. -/
theorem getFileByShareId_spec_witness :
    fileX1.shareId = "x" ∧
    ∃ l₁ l₂, mapValues dupState.files = l₁ ++ fileX1 :: l₂ ∧ ∀ g ∈ l₁, g.shareId ≠ "x" :=
  (getFileByShareId_spec dupState "x").1 fileX1 (by decide)

/-! ## C6: the increment operations -/

/-- Is this operation `incrementViews id` for the given `id`? -/
def isIncViews (id : Nat) : Op → Bool
  | .incViews j => j == id
  | _ => false

/-- Does this operation leave the record with key `id` alone?  `create` and the
read operations never touch an existing record; the other mutators qualify
exactly when they target a different id. -/
def onOtherId (id : Nat) : Op → Bool
  | .incViews j => j != id
  | .incDownloads j => j != id
  | .delete j => j != id
  | _ => true

theorem mapGet_incrementViews_self {s : MemStorage} {id : Nat} {f : File}
    (hget : mapGet id s.files = some f) :
    mapGet id (incrementViews s id).files = some { f with views := f.views + 1 } := by
  unfold incrementViews
  rw [hget]
  exact mapGet_mapSet_self _ _ _

theorem mapGet_incrementDownloads_self {s : MemStorage} {id : Nat} {f : File}
    (hget : mapGet id s.files = some f) :
    mapGet id (incrementDownloads s id).files
      = some { f with downloads := f.downloads + 1 } := by
  unfold incrementDownloads
  rw [hget]
  exact mapGet_mapSet_self _ _ _

theorem mapGet_applyOp_other {s : MemStorage} {id : Nat} {f : File} (op : Op)
    (hb : ∀ kv ∈ s.files, kv.1 < s.currentId)
    (hget : mapGet id s.files = some f)
    (hop : onOtherId id op = true) :
    mapGet id (applyOp s op).files = some f := by
  cases op with
  | create d now =>
    have hne : id ≠ s.currentId := Nat.ne_of_lt (hb (id, f) (mapGet_mem hget))
    have hfiles : (applyOp s (Op.create d now)).files
        = mapSet s.currentId (createFile s d now).1 s.files := rfl
    rw [hfiles, mapGet_mapSet_ne hne]
    exact hget
  | lookupShare sid => exact hget
  | listAll => exact hget
  | incViews j =>
    have hne : j ≠ id := by simpa [onOtherId] using hop
    show mapGet id (incrementViews s j).files = some f
    unfold incrementViews
    cases hg : mapGet j s.files with
    | none => exact hget
    | some g =>
      show mapGet id (mapSet j { g with views := g.views + 1 } s.files) = some f
      rw [mapGet_mapSet_ne (Ne.symm hne)]
      exact hget
  | incDownloads j =>
    have hne : j ≠ id := by simpa [onOtherId] using hop
    show mapGet id (incrementDownloads s j).files = some f
    unfold incrementDownloads
    cases hg : mapGet j s.files with
    | none => exact hget
    | some g =>
      show mapGet id (mapSet j { g with downloads := g.downloads + 1 } s.files) = some f
      rw [mapGet_mapSet_ne (Ne.symm hne)]
      exact hget
  | delete j =>
    have hne : j ≠ id := by simpa [onOtherId] using hop
    show mapGet id (mapDelete j s.files) = some f
    rw [mapGet_mapDelete_ne (Ne.symm hne)]
    exact hget
  | stats => exact hget

theorem views_after_runOps :
    ∀ (ops : List Op) (s : MemStorage) (f : File) (id : Nat),
      Inv s → mapGet id s.files = some f →
      (∀ op ∈ ops, isIncViews id op = true ∨ onOtherId id op = true) →
      (mapGet id (runOps s ops).files).map File.views
        = some (f.views + ops.countP (isIncViews id))
  | [], s, f, id, _, hget, _ => by simp [runOps, hget]
  | op :: rest, s, f, id, hinv, hget, hops => by
    have hoprest : ∀ o ∈ rest, isIncViews id o = true ∨ onOtherId id o = true :=
      fun o ho => hops o (List.mem_cons_of_mem _ ho)
    have hinv' : Inv (applyOp s op) := inv_applyOp hinv op
    rcases hops op (List.mem_cons_self _ _) with hop | hop
    · have hopid : op = Op.incViews id := by
        cases op with
        | incViews j =>
          have hji : j = id := Nat.eq_of_beq_eq_true (by simpa [isIncViews] using hop)
          rw [hji]
        | create d now => simp [isIncViews] at hop
        | lookupShare sid => simp [isIncViews] at hop
        | listAll => simp [isIncViews] at hop
        | incDownloads j => simp [isIncViews] at hop
        | delete j => simp [isIncViews] at hop
        | stats => simp [isIncViews] at hop
      subst hopid
      have hget' := mapGet_incrementViews_self hget
      have hih := views_after_runOps rest (applyOp s (Op.incViews id))
        { f with views := f.views + 1 } id hinv' hget' hoprest
      show (mapGet id (runOps (applyOp s (Op.incViews id)) rest).files).map File.views = _
      rw [hih]
      simp [List.countP_cons, isIncViews]
      omega
    · have hget' := mapGet_applyOp_other op hinv.1 hget hop
      have hih := views_after_runOps rest (applyOp s op) f id hinv' hget' hoprest
      show (mapGet id (runOps (applyOp s op) rest).files).map File.views = _
      rw [hih]
      have hnot : isIncViews id op = false := by
        cases op with
        | incViews j =>
          have hne : j ≠ id := by simpa [onOtherId] using hop
          simpa [isIncViews] using beq_eq_false_iff_ne.mpr hne
        | create d now => rfl
        | lookupShare sid => rfl
        | listAll => rfl
        | incDownloads j => rfl
        | delete j => rfl
        | stats => rfl
      simp [List.countP_cons, hnot]

/-- C6: for every id, `incrementViews id` (resp. `incrementDownloads id`)
replaces the record at that id with the same record whose `views` (resp.
`downloads`) counter is larger by exactly 1 when the record exists, touching no
other record, and is a silent no-op (the state is returned unchanged, no
error) when no record with that id exists; consequently, over any operation
sequence whose members are `incrementViews id` calls or operations on other
ids, the record's `views` counter grows by exactly the number of
`incrementViews id` calls, regardless of interleaving. -/
theorem increment_counters_spec (s : MemStorage) (id : Nat) :
    (∀ f, mapGet id s.files = some f →
      mapGet id (incrementViews s id).files = some { f with views := f.views + 1 } ∧
      mapGet id (incrementDownloads s id).files
        = some { f with downloads := f.downloads + 1 }) ∧
    (mapGet id s.files = none →
      incrementViews s id = s ∧ incrementDownloads s id = s) ∧
    (∀ j, j ≠ id → mapGet j (incrementViews s id).files = mapGet j s.files) ∧
    (∀ ops f, Inv s → mapGet id s.files = some f →
      (∀ op ∈ ops, isIncViews id op = true ∨ onOtherId id op = true) →
      (mapGet id (runOps s ops).files).map File.views
        = some (f.views + ops.countP (isIncViews id))) := by
  refine ⟨?_, ?_, ?_, ?_⟩
  · intro f hf
    exact ⟨mapGet_incrementViews_self hf, mapGet_incrementDownloads_self hf⟩
  · intro hnone
    constructor
    · unfold incrementViews
      rw [hnone]
    · unfold incrementDownloads
      rw [hnone]
  · intro j hj
    unfold incrementViews
    cases hg : mapGet id s.files with
    | none => rfl
    | some g =>
      show mapGet j (mapSet id { g with views := g.views + 1 } s.files) = mapGet j s.files
      exact mapGet_mapSet_ne hj _ _
  · intro ops f hinv hf hops
    exact views_after_runOps ops s f id hinv hf hops

/-- C6 witness: in `tieState`, two `incrementViews 1` calls interleaved with an
`incrementDownloads 2` on the other record raise record 1's `views` from 0 by
exactly the number of `incrementViews 1` calls. -/
theorem increment_counters_spec_witness :
    (mapGet 1 (runOps tieState [Op.incViews 1, Op.incDownloads 2, Op.incViews 1]).files).map File.views
      = some (fileA5.views
          + ([Op.incViews 1, Op.incDownloads 2, Op.incViews 1].countP (isIncViews 1))) :=
  (increment_counters_spec tieState 1).2.2.2
    [Op.incViews 1, Op.incDownloads 2, Op.incViews 1] fileA5
    (by decide) (by decide) (by decide)

/-! ## C7: deletion -/

/-- C7 counterexample: in `dupState` two live records share the shareId "x";
record 1 (`fileX1`) has shareId "x", yet after `deleteFile 1` a lookup of that
former shareId still succeeds (it finds the other record), so it does not
return the claimed not-found signal. -/
theorem deleteFile_lookup_counterexample :
    mapGet 1 dupState.files = some fileX1 ∧
    fileX1.shareId = "x" ∧
    (getFileByShareId (deleteFile dupState 1) "x").1 ≠ none := by decide

/-- C7 amended: for every reachable store and every id, `deleteFile id` removes
the record with that id when present — afterwards no record is stored at that
id, `getAllFiles` no longer includes the record, and `getFileByShareId` with
its former `shareId` never returns it, returning not-found provided no other
live record has the same `shareId` —; an absent id (including a repeated
delete of the same id) is a silent no-op that does not error. -/
theorem deleteFile_spec (s : MemStorage) (id : Nat) (hs : Reachable s) :
    mapGet id (deleteFile s id).files = none ∧
    (∀ f, mapGet id s.files = some f →
      f ∉ (getAllFiles (deleteFile s id)).1 ∧
      (getFileByShareId (deleteFile s id) f.shareId).1 ≠ some f ∧
      ((∀ kv ∈ s.files, kv.1 ≠ id → kv.2.shareId ≠ f.shareId) →
        (getFileByShareId (deleteFile s id) f.shareId).1 = none)) ∧
    (mapGet id s.files = none → deleteFile s id = s) ∧
    deleteFile (deleteFile s id) id = deleteFile s id := by
  obtain ⟨hb, hnd, hid⟩ := reachable_inv hs
  have hdel : mapGet id (mapDelete id s.files) = none := mapGet_mapDelete_self hnd
  have hmemval : ∀ f, mapGet id s.files = some f →
      f ∉ mapValues (deleteFile s id).files := by
    intro f hf hmem
    have hfid : f.id = id := hid (id, f) (mapGet_mem hf)
    obtain ⟨kv, hkv, hkvf⟩ := List.mem_map.mp hmem
    obtain ⟨hkvmem, hkvne⟩ := mem_mapDelete_of_nodup hnd hkv
    have : kv.2.id = kv.1 := hid kv hkvmem
    rw [hkvf, hfid] at this
    exact hkvne this.symm
  refine ⟨hdel, ?_, ?_, ?_⟩
  · intro f hf
    refine ⟨?_, ?_, ?_⟩
    · intro hmem
      exact hmemval f hf ((List.mem_insertionSort timeGE).mp hmem)
    · intro heq
      exact hmemval f hf (List.mem_of_find?_eq_some heq)
    · intro hother
      show (mapValues (deleteFile s id).files).find? (fun file => file.shareId == f.shareId) = none
      rw [List.find?_eq_none]
      intro g hg
      obtain ⟨kv, hkv, hkvg⟩ := List.mem_map.mp hg
      obtain ⟨hkvmem, hkvne⟩ := mem_mapDelete_of_nodup hnd hkv
      have := hother kv hkvmem hkvne
      rw [hkvg] at this
      simpa using this
  · intro hnone
    have : mapDelete id s.files = s.files := mapDelete_of_none hnone
    show { s with files := mapDelete id s.files } = s
    rw [this]
  · have h1 : deleteFile (deleteFile s id) id
        = { s with files := mapDelete id (mapDelete id s.files) } := rfl
    rw [h1, mapDelete_of_none hdel]
    rfl

/-- C7 amended, witness: deleting id 1 from `dupState` empties slot 1, drops
`fileX1` from the listing, and a second delete of the same id is a no-op. -/
theorem deleteFile_spec_witness :
    mapGet 1 (deleteFile dupState 1).files = none ∧
    fileX1 ∉ (getAllFiles (deleteFile dupState 1)).1 ∧
    deleteFile (deleteFile dupState 1) 1 = deleteFile dupState 1 :=
  ⟨(deleteFile_spec dupState 1 ⟨[Op.create draftX1 1, Op.create draftX2 2], rfl⟩).1,
   ((deleteFile_spec dupState 1 ⟨[Op.create draftX1 1, Op.create draftX2 2], rfl⟩).2.1
      fileX1 (by decide)).1,
   (deleteFile_spec dupState 1 ⟨[Op.create draftX1 1, Op.create draftX2 2], rfl⟩).2.2.2⟩

/-! ## C8: counters never decrease -/

/-- C8: in every reachable state, no store operation ever decreases the
`views` or `downloads` counter of a record that remains live: if the record at
some id is `f` before an operation and `g` after it, then `f.views ≤ g.views`
and `f.downloads ≤ g.downloads` (and by C5 both counters start at 0 at
creation). -/
theorem counters_monotone (s : MemStorage) (op : Op) (id : Nat) (f g : File)
    (hs : Reachable s)
    (hf : mapGet id s.files = some f)
    (hg : mapGet id (applyOp s op).files = some g) :
    f.views ≤ g.views ∧ f.downloads ≤ g.downloads := by
  obtain ⟨hb, hnd, hid⟩ := reachable_inv hs
  cases op with
  | incViews j =>
    by_cases hj : j = id
    · subst hj
      have hstep := mapGet_incrementViews_self hf
      have hfg := Option.some.inj ((hstep.symm.trans hg))
      rw [← hfg]
      exact ⟨Nat.le_succ _, Nat.le_refl _⟩
    · have hsame := mapGet_applyOp_other (Op.incViews j) hb hf
        (by simp [onOtherId, hj])
      have hfg := Option.some.inj (hsame.symm.trans hg)
      rw [← hfg]
      exact ⟨Nat.le_refl _, Nat.le_refl _⟩
  | incDownloads j =>
    by_cases hj : j = id
    · subst hj
      have hstep := mapGet_incrementDownloads_self hf
      have hfg := Option.some.inj ((hstep.symm.trans hg))
      rw [← hfg]
      exact ⟨Nat.le_refl _, Nat.le_succ _⟩
    · have hsame := mapGet_applyOp_other (Op.incDownloads j) hb hf
        (by simp [onOtherId, hj])
      have hfg := Option.some.inj (hsame.symm.trans hg)
      rw [← hfg]
      exact ⟨Nat.le_refl _, Nat.le_refl _⟩
  | delete j =>
    by_cases hj : j = id
    · subst hj
      have : mapGet j (applyOp s (Op.delete j)).files = none :=
        mapGet_mapDelete_self hnd
      rw [this] at hg
      cases hg
    · have hsame := mapGet_applyOp_other (Op.delete j) hb hf
        (by simp [onOtherId, hj])
      have hfg := Option.some.inj (hsame.symm.trans hg)
      rw [← hfg]
      exact ⟨Nat.le_refl _, Nat.le_refl _⟩
  | create d now =>
    have hsame := mapGet_applyOp_other (Op.create d now) hb hf rfl
    have hfg := Option.some.inj (hsame.symm.trans hg)
    rw [← hfg]
    exact ⟨Nat.le_refl _, Nat.le_refl _⟩
  | lookupShare sid =>
    have hfg := Option.some.inj (hf.symm.trans hg)
    rw [← hfg]
    exact ⟨Nat.le_refl _, Nat.le_refl _⟩
  | listAll =>
    have hfg := Option.some.inj (hf.symm.trans hg)
    rw [← hfg]
    exact ⟨Nat.le_refl _, Nat.le_refl _⟩
  | stats =>
    have hfg := Option.some.inj (hf.symm.trans hg)
    rw [← hfg]
    exact ⟨Nat.le_refl _, Nat.le_refl _⟩

/-- C8 witness: an `incrementViews 1` step in the reachable state `tieState`
does not decrease either counter of record 1. -/
theorem counters_monotone_witness :
    fileA5.views ≤ ({ fileA5 with views := fileA5.views + 1 } : File).views ∧
    fileA5.downloads ≤ ({ fileA5 with views := fileA5.views + 1 } : File).downloads :=
  counters_monotone tieState (Op.incViews 1) 1 fileA5
    { fileA5 with views := fileA5.views + 1 }
    ⟨[Op.create draftA 5, Op.create draftB 5], rfl⟩ (by decide) (by decide)

/-! ## C9: create / lookup round trip -/

theorem find?_append_of_none {p : File → Bool} :
    ∀ {l₁ : List File} (l₂ : List File), l₁.find? p = none →
      (l₁ ++ l₂).find? p = l₂.find? p
  | [], l₂, _ => rfl
  | x :: rest, l₂, h => by
    by_cases hx : p x
    · rw [List.find?_cons_of_pos _ hx] at h
      simp at h
    · rw [List.find?_cons_of_neg _ hx] at h
      rw [List.cons_append, List.find?_cons_of_neg _ hx]
      exact find?_append_of_none l₂ h

/-- C9: round trip at the public lookup key: in every reachable state in which
no live record has the draft's `shareId`, running `createFile` and then
`getFileByShareId` on that `shareId` returns exactly the record `createFile`
returned (by C5: same assigned id, same draft fields, same timestamp,
counters 0). -/
theorem create_then_lookup_roundtrip (s : MemStorage) (d : InsertFile) (now : Nat)
    (hs : Reachable s)
    (hfresh : ∀ f ∈ mapValues s.files, f.shareId ≠ d.shareId) :
    (getFileByShareId (createFile s d now).2 d.shareId).1
      = some (createFile s d now).1 := by
  obtain ⟨hb, hnd, hid⟩ := reachable_inv hs
  have hfiles := createFile_files_eq s d now hb
  have hvals : mapValues (createFile s d now).2.files
      = mapValues s.files ++ [(createFile s d now).1] := by
    rw [hfiles]
    simp [mapValues]
  have hnone : (mapValues s.files).find? (fun file => file.shareId == d.shareId) = none := by
    rw [List.find?_eq_none]
    intro f hf
    simpa using hfresh f hf
  show (mapValues (createFile s d now).2.files).find?
      (fun file => file.shareId == d.shareId) = some (createFile s d now).1
  rw [hvals, find?_append_of_none _ hnone, List.find?_cons_of_pos _ (by simp [createFile])]

/-- C9 witness: creating a record with the fresh shareId "x" in `tieState` and
looking it up returns exactly the created record. -/
theorem create_then_lookup_roundtrip_witness :
    (getFileByShareId (createFile tieState draftX1 7).2 draftX1.shareId).1
      = some (createFile tieState draftX1 7).1 :=
  create_then_lookup_roundtrip tieState draftX1 7
    ⟨[Op.create draftA 5, Op.create draftB 5], rfl⟩ (by decide)

end FileSharePro
